import Mathlib

/-!
Verification of the TransMamba/MambaVision model definition
(`mambavision/models/trans_mamba_ord.py`).

Tensors are embedded shallowly: a tensor of shape (B, L, C) is a record of
its three sizes together with a total indexing function `ℕ → ℕ → ℕ → α`;
only indices below the recorded sizes are meaningful.  The tensor-reshaping
operations of the source (`view`, `permute`, `reshape`, `flip`, slicing)
are translated into the corresponding index arithmetic, which is exactly
what the strided implementations compute.  Values are kept abstract (an
arbitrary type `α`, or `ℚ` where the claim is about arithmetic), since the
operations under study are data movements.
-/

/-- A 3-d tensor of shape (B, L, C): sizes plus an indexing function
(batch, position, channel). -/
structure Tens3 (α : Type) where
  B : ℕ
  L : ℕ
  C : ℕ
  data : ℕ → ℕ → ℕ → α

/-- A 4-d tensor of shape (B, C, H, W): sizes plus an indexing function
(batch, channel, height, width). -/
structure Tens4 (α : Type) where
  B : ℕ
  C : ℕ
  H : ℕ
  W : ℕ
  data : ℕ → ℕ → ℕ → ℕ → α

/-- Helper for `isqrt`: the largest `j ≤ k` with `j * j ≤ n` (0 when there
is none).  Structural recursion on `k`, so the kernel can evaluate it. -/
def isqrtGo (n : ℕ) : ℕ → ℕ
  | 0 => 0
  | k + 1 => if (k + 1) * (k + 1) ≤ n then k + 1 else isqrtGo n k

/-- Floor square root, modelling `int(np.sqrt(l))` as used by `scanning`
and `reverse`: the largest `k` with `k * k ≤ n`. -/
def isqrt (n : ℕ) : ℕ := isqrtGo n n

/-- `scanning` (trans_mamba_ord.py lines 484-502).  The input `(B, L, C)`
tensor is viewed as `(B, a, a, C)` with `a = int(np.sqrt(L))`, cut into its
four `a/2 × a/2` quadrants, the quadrants are flipped with
`torch.flip(x2, dims=[1])`, `torch.flip(x3, dims=[0])` and
`torch.flip(x4, dims=[0, 1])` (on the 4-d quadrant tensors, `dims=[0]` is
the batch axis and `dims=[1]` the row axis), and each quadrant is
reshaped to `(B, a*a/4, C)`.  The flattened index `l` of the 4-d view at
row `i`, column `j` is `i * a + j`; a flip along an axis of size `n` sends
index `k` to `n - 1 - k`. -/
def scanning (α : Type) (x : Tens3 α) : Tens3 α × Tens3 α × Tens3 α × Tens3 α :=
  let a := isqrt x.L
  let m := a / 2
  let x4d : ℕ → ℕ → ℕ → ℕ → α := fun b i j c => x.data b (i * a + j) c
  let q1 : ℕ → ℕ → ℕ → ℕ → α := fun b i j c => x4d b i j c
  let q2 : ℕ → ℕ → ℕ → ℕ → α := fun b i j c => x4d b i (j + m) c
  let q3 : ℕ → ℕ → ℕ → ℕ → α := fun b i j c => x4d b (i + m) j c
  let q4 : ℕ → ℕ → ℕ → ℕ → α := fun b i j c => x4d b (i + m) (j + m) c
  let q2f : ℕ → ℕ → ℕ → ℕ → α := fun b i j c => q2 b (m - 1 - i) j c
  let q3f : ℕ → ℕ → ℕ → ℕ → α := fun b i j c => q3 (x.B - 1 - b) i j c
  let q4f : ℕ → ℕ → ℕ → ℕ → α := fun b i j c => q4 (x.B - 1 - b) (m - 1 - i) j c
  let flat : (ℕ → ℕ → ℕ → ℕ → α) → Tens3 α := fun q =>
    { B := x.B
      L := a * a / 4
      C := x.C
      data := fun b l c => q b (l / m) (l % m) c }
  (flat q1, flat q2f, flat q3f, flat q4f)

/-- `reverse` (trans_mamba_ord.py lines 504-523).  `a` is recomputed as
`2 * int(np.sqrt(x1.size(1)))`; a zero tensor of shape `(B, a*a, C)` is
viewed as `(B, a, a, C)`; the four inputs are flipped with the same `dims`
arguments as in `scanning` - but here the tensors are still 3-d of shape
`(B, L/4, C)`, so `dims=[1]` is the flattened position axis and `dims=[0]`
the batch axis - then each is viewed as `(B, a/2, a/2, C)` and written
into the four quadrants, and the result is flattened to `(B, a*a, C)`. -/
def reverse (α : Type) (x1 x2 x3 x4 : Tens3 α) : Tens3 α :=
  let a := 2 * isqrt x1.L
  let m := a / 2
  let x2f : ℕ → ℕ → ℕ → α := fun b l c => x2.data b (x2.L - 1 - l) c
  let x3f : ℕ → ℕ → ℕ → α := fun b l c => x3.data (x3.B - 1 - b) l c
  let x4f : ℕ → ℕ → ℕ → α := fun b l c => x4.data (x4.B - 1 - b) (x4.L - 1 - l) c
  let v1 : ℕ → ℕ → ℕ → ℕ → α := fun b i j c => x1.data b (i * m + j) c
  let v2 : ℕ → ℕ → ℕ → ℕ → α := fun b i j c => x2f b (i * m + j) c
  let v3 : ℕ → ℕ → ℕ → ℕ → α := fun b i j c => x3f b (i * m + j) c
  let v4 : ℕ → ℕ → ℕ → ℕ → α := fun b i j c => x4f b (i * m + j) c
  let assembled : ℕ → ℕ → ℕ → ℕ → α := fun b i j c =>
    if i < m then
      if j < m then v1 b i j c else v2 b i (j - m) c
    else
      if j < m then v3 b (i - m) j c else v4 b (i - m) (j - m) c
  { B := x1.B
    L := a * a
    C := x1.C
    data := fun b l c => assembled b (l / a) (l % a) c }

/-- `scanning` with its failure conditions made explicit: the
`x.view(B, a, a, C)` on line 489 only succeeds when `a * a` equals the
sequence length, and the `assert a % 2 == 0` on line 490 only passes when
`a` is even; otherwise the call raises. -/
def scanningChecked (α : Type) (x : Tens3 α) :
    Option (Tens3 α × Tens3 α × Tens3 α × Tens3 α) :=
  let a := isqrt x.L
  if a * a = x.L then
    if a % 2 = 0 then some (scanning α x) else none
  else none

/-- Concrete 1-batch, 1-channel, length-16 input for the scan/reverse
round trip: position `l` holds value `l`. -/
def xRT : Tens3 ℤ :=
  { B := 1, L := 16, C := 1, data := fun _ l _ => (l : ℤ) }

/-- Concrete 2-batch input for the batch-mixing analysis of `scanning`:
batch `b`, position `l` holds `10 * b + l`. -/
def xBatch : Tens3 ℤ :=
  { B := 2, L := 4, C := 1, data := fun b l _ => 10 * (b : ℤ) + (l : ℤ) }

/-- Variant of `xBatch` that agrees with it everywhere on batch 0 but
differs on batch 1. -/
def xBatch' : Tens3 ℤ :=
  { B := 2, L := 4, C := 1, data := fun b l _ => if b = 0 then (l : ℤ) else 100 }

/-- C1: the claim that `reverse` inverts `scanning` fails on the code.  On
the concrete input `xRT` (B = 1, L = 16 = 4 * 4, C = 1, value = position)
the round trip returns the tensor with the columns inside the right-half
quadrants reversed: position 2 comes back holding the value of position 3.
The shapes do match.  Cause: `scanning` flips the quadrants as 4-d
`(B, a/2, a/2, C)` tensors while `reverse` applies the same `dims` lists to
the still-flattened 3-d `(B, L/4, C)` tensors, so the `dims=[1]` flips act
on different axes and do not cancel on the column part. -/
theorem reverse_scanning_not_id :
    (reverse ℤ (scanning ℤ xRT).1 (scanning ℤ xRT).2.1 (scanning ℤ xRT).2.2.1
        (scanning ℤ xRT).2.2.2).B = xRT.B ∧
      (reverse ℤ (scanning ℤ xRT).1 (scanning ℤ xRT).2.1 (scanning ℤ xRT).2.2.1
        (scanning ℤ xRT).2.2.2).L = xRT.L ∧
      (reverse ℤ (scanning ℤ xRT).1 (scanning ℤ xRT).2.1 (scanning ℤ xRT).2.2.1
        (scanning ℤ xRT).2.2.2).C = xRT.C ∧
      (reverse ℤ (scanning ℤ xRT).1 (scanning ℤ xRT).2.1 (scanning ℤ xRT).2.2.1
        (scanning ℤ xRT).2.2.2).data 0 2 0 = 3 ∧
      xRT.data 0 2 0 = 2 ∧
      (reverse ℤ (scanning ℤ xRT).1 (scanning ℤ xRT).2.1 (scanning ℤ xRT).2.2.1
        (scanning ℤ xRT).2.2.2).data 0 2 0 ≠ xRT.data 0 2 0 := by
  decide

/-- C4: `scanning` mixes batch elements.  `xBatch` and `xBatch'` agree at
every position and channel of batch 0, yet the third returned sequence
differs at batch 0: `torch.flip(x3, dims=[0])` on the 4-d quadrant tensor
flips the batch axis, so output batch 0 of the third and fourth sequences
reads input batch `B - 1`. -/
theorem scanning_mixes_batches :
    (∀ l c : ℕ, xBatch.data 0 l c = xBatch'.data 0 l c) ∧
      (scanning ℤ xBatch).2.2.1.data 0 0 0 = 12 ∧
      (scanning ℤ xBatch').2.2.1.data 0 0 0 = 100 ∧
      (scanning ℤ xBatch).2.2.1.data 0 0 0 ≠ (scanning ℤ xBatch').2.2.1.data 0 0 0 := by
  refine ⟨fun l c => ?_, by decide, by decide, by decide⟩
  simp [xBatch, xBatch']

/-- C9: characterisation of when `scanning` succeeds, and the shapes it
returns.  The call succeeds exactly when the sequence length is the square
of `a = int(np.sqrt(L))` (otherwise `view` fails) and `a` is even
(otherwise the assertion fails); each of the four results has the shape
`(B, a*a/4, C)` recorded by the final reshape. -/
theorem scanningChecked_spec (α : Type) (x : Tens3 α) :
    ((scanningChecked α x).isSome ↔
        isqrt x.L * isqrt x.L = x.L ∧ isqrt x.L % 2 = 0) ∧
      ((scanning α x).1.B = x.B ∧
        (scanning α x).1.L = isqrt x.L * isqrt x.L / 4 ∧
        (scanning α x).1.C = x.C) ∧
      ((scanning α x).2.1.B = x.B ∧
        (scanning α x).2.1.L = isqrt x.L * isqrt x.L / 4 ∧
        (scanning α x).2.1.C = x.C) ∧
      ((scanning α x).2.2.1.B = x.B ∧
        (scanning α x).2.2.1.L = isqrt x.L * isqrt x.L / 4 ∧
        (scanning α x).2.2.1.C = x.C) ∧
      ((scanning α x).2.2.2.B = x.B ∧
        (scanning α x).2.2.2.L = isqrt x.L * isqrt x.L / 4 ∧
        (scanning α x).2.2.2.C = x.C) := by
  refine ⟨?_, ⟨rfl, rfl, rfl⟩, ⟨rfl, rfl, rfl⟩, ⟨rfl, rfl, rfl⟩, ⟨rfl, rfl, rfl⟩⟩
  show (if isqrt x.L * isqrt x.L = x.L then
      if isqrt x.L % 2 = 0 then some (scanning α x) else none
    else none).isSome = true ↔ _
  split_ifs with h1 h2 <;> simp_all

/-- Division recovery: `(q * n + r) / n = q` when `r < n`. -/
theorem mulAddDiv (q r n : ℕ) (h : r < n) : (q * n + r) / n = q := by
  have hn : 0 < n := by omega
  rw [mul_comm, Nat.mul_add_div hn, Nat.div_eq_of_lt h, Nat.add_zero]

/-- Remainder recovery: `(q * n + r) % n = r` when `r < n`. -/
theorem mulAddMod (q r n : ℕ) (h : r < n) : (q * n + r) % n = r := by
  rw [mul_comm, Nat.mul_add_mod, Nat.mod_eq_of_lt h]

/-- Pair bound: `i * wb + j < hb * wb` when `i < hb` and `j < wb`. -/
theorem mulAddLt (i j hb wb : ℕ) (hi : i < hb) (hj : j < wb) :
    i * wb + j < hb * wb := by
  calc i * wb + j < i * wb + wb := by omega
    _ = (i + 1) * wb := by ring
    _ ≤ hb * wb := Nat.mul_le_mul_right _ hi

/-- `window_partition` (trans_mamba_ord.py lines 96-109).  A `(B, C, H, W)`
tensor is viewed as `(B, C, H/ws, ws, W/ws, ws)`, permuted with
`(0, 2, 4, 3, 5, 1)` to `(B, H/ws, W/ws, ws, ws, C)` and reshaped to
`(num_windows * B, ws * ws, C)`; the row-major flattening puts window `g`
of batch `b`, block-row `i`, block-column `j` at
`g = b * (H/ws * W/ws) + i * (W/ws) + j` and the in-window position of
row `wi`, column `wj` at `l = wi * ws + wj`. -/
def window_partition (α : Type) (x : Tens4 α) (window_size : ℕ) : Tens3 α :=
  let hb := x.H / window_size
  let wb := x.W / window_size
  { B := x.B * (hb * wb)
    L := window_size * window_size
    C := x.C
    data := fun g l c =>
      x.data (g / (hb * wb)) c
        (g % (hb * wb) / wb * window_size + l / window_size)
        (g % (hb * wb) % wb * window_size + l % window_size) }

/-- `window_reverse` (trans_mamba_ord.py lines 112-125).  The batch size is
recovered as `windows.shape[0] / (H * W / ws / ws)`; the windows tensor is
reshaped to `(B, H/ws, W/ws, ws, ws, C)`, permuted with `(0, 5, 1, 3, 2, 4)`
to `(B, C, H/ws, ws, W/ws, ws)` and reshaped to
`(B, windows.shape[2], H, W)`. -/
def window_reverse (α : Type) (windows : Tens3 α) (window_size H W : ℕ) : Tens4 α :=
  let hb := H / window_size
  let wb := W / window_size
  { B := windows.B / (H * W / window_size / window_size)
    C := windows.C
    H := H
    W := W
    data := fun b c h w =>
      windows.data (b * (hb * wb) + (h / window_size * wb + w / window_size))
        (h % window_size * window_size + w % window_size) c }

/-- C3: `window_reverse` inverts `window_partition`: whenever the window
size divides both spatial extents, composing the two returns the original
tensor - the same four sizes, and the same value at every in-range
index. -/
theorem window_reverse_partition (α : Type) (x : Tens4 α) (ws : ℕ)
    (hws : 0 < ws) (hH : ws ∣ x.H) (hW : ws ∣ x.W)
    (b c h w : ℕ) (hh : h < x.H) (hw : w < x.W) :
    let wr := window_reverse α (window_partition α x ws) ws x.H x.W
    wr.B = x.B ∧ wr.C = x.C ∧ wr.H = x.H ∧ wr.W = x.W ∧
      wr.data b c h w = x.data b c h w := by
  intro wr
  obtain ⟨hb, hHe⟩ := hH
  obtain ⟨wb, hWe⟩ := hW
  have hbpos : 0 < hb := by
    rcases Nat.eq_zero_or_pos hb with h0 | h1
    · subst h0; simp [hHe] at hh
    · exact h1
  have wbpos : 0 < wb := by
    rcases Nat.eq_zero_or_pos wb with h0 | h1
    · subst h0; simp [hWe] at hw
    · exact h1
  have hdivH : x.H / ws = hb := by rw [hHe, mul_comm, Nat.mul_div_cancel _ hws]
  have hdivW : x.W / ws = wb := by rw [hWe, mul_comm, Nat.mul_div_cancel _ hws]
  have hHW : x.H * x.W / ws / ws = hb * wb := by
    rw [hHe, hWe]
    rw [show ws * hb * (ws * wb) = hb * (ws * wb) * ws from by ring]
    rw [Nat.mul_div_cancel _ hws]
    rw [show hb * (ws * wb) = hb * wb * ws from by ring]
    rw [Nat.mul_div_cancel _ hws]
  have hih : h / ws < hb := by
    rw [← hdivH]
    exact Nat.div_lt_div_of_lt_of_dvd ⟨hb, hHe⟩ hh
  have hjw : w / ws < wb := by
    rw [← hdivW]
    exact Nat.div_lt_div_of_lt_of_dvd ⟨wb, hWe⟩ hw
  have hmh : h % ws < ws := Nat.mod_lt _ hws
  have hmw : w % ws < ws := Nat.mod_lt _ hws
  refine ⟨?_, rfl, rfl, rfl, ?_⟩
  · show x.B * (x.H / ws * (x.W / ws)) / (x.H * x.W / ws / ws) = x.B
    rw [hdivH, hdivW, hHW, Nat.mul_div_cancel _ (Nat.mul_pos hbpos wbpos)]
  · show (window_partition α x ws).data
        (b * (x.H / ws * (x.W / ws)) + (h / ws * (x.W / ws) + w / ws))
        (h % ws * ws + w % ws) c = x.data b c h w
    simp only [window_partition]
    rw [hdivH, hdivW]
    have hlt : h / ws * wb + w / ws < hb * wb := mulAddLt _ _ _ _ hih hjw
    rw [mulAddDiv _ _ _ hlt, mulAddMod _ _ _ hlt,
      mulAddDiv _ _ _ hjw, mulAddMod _ _ _ hjw,
      mulAddDiv _ _ _ hmw, mulAddMod _ _ _ hmw,
      Nat.div_add_mod', Nat.div_add_mod']

/-- Concrete (B, C, H, W) = (2, 1, 4, 4) tensor for the window round-trip
witness: value encodes the full index. -/
def xWin : Tens4 ℤ :=
  { B := 2, C := 1, H := 4, W := 4
    data := fun b c h w => 1000 * (b : ℤ) + 100 * (c : ℤ) + 10 * (h : ℤ) + (w : ℤ) }

/-- Witness for `window_reverse_partition`: the hypotheses hold and the
round trip recovers `xWin` at index (0, 0, 3, 2) with window size 2. -/
theorem window_reverse_partition_witness :
    (0 < 2 ∧ 2 ∣ xWin.H ∧ 2 ∣ xWin.W ∧ 3 < xWin.H ∧ 2 < xWin.W) ∧
      ((window_reverse ℤ (window_partition ℤ xWin 2) 2 xWin.H xWin.W).B = xWin.B ∧
        (window_reverse ℤ (window_partition ℤ xWin 2) 2 xWin.H xWin.W).C = xWin.C ∧
        (window_reverse ℤ (window_partition ℤ xWin 2) 2 xWin.H xWin.W).H = xWin.H ∧
        (window_reverse ℤ (window_partition ℤ xWin 2) 2 xWin.H xWin.W).W = xWin.W ∧
        (window_reverse ℤ (window_partition ℤ xWin 2) 2 xWin.H xWin.W).data 0 0 3 2 =
          xWin.data 0 0 3 2) :=
  ⟨⟨by decide, by decide, by decide, by decide, by decide⟩,
    window_reverse_partition ℤ xWin 2 (by decide) (by decide) (by decide) 0 0 3 2
      (by decide) (by decide)⟩

/-- The two kinds of residual blocks a stage can hold: `ConvBlock`
(convolution + batch norm, lines 288-319) or `Block` (the block of lines
525-600, which contains the `MambaVisionMixer` and the `Attention`
module). -/
inductive BlockKind where
  | conv
  | transformer
deriving DecidableEq, Inhabited

/-- Structural description of one `TransMambaLayer` (lines 603-671): its
feature dimension, the `conv` flag, the list of blocks it builds, whether
a `Downsample` module is attached, and its depth. -/
structure LevelSpec where
  dim : ℕ
  conv : Bool
  blocks : List BlockKind
  hasDownsample : Bool
  depth : ℕ
deriving DecidableEq, Inhabited

/-- `TransMambaLayer.__init__` (lines 645-671): with `conv=True` the stage
is `depth` copies of `ConvBlock`, otherwise `depth` copies of `Block`;
`downsample=None` unless the `downsample` argument is true. -/
def mkTransMambaLayer (dim depth : ℕ) (conv downsample : Bool) : LevelSpec :=
  { dim := dim
    conv := conv
    blocks :=
      if conv then List.replicate depth BlockKind.conv
      else List.replicate depth BlockKind.transformer
    hasDownsample := downsample
    depth := depth }

/-- The stage loop of `TransMamba.__init__` (lines 750-768): for each
`i in range(len(depths))` a `TransMambaLayer` is built with dimension
`dim * 2 ** i`, `conv = (i == 0 or i == 1)` and `downsample = (i < 2)`. -/
def transMambaLevels (dim : ℕ) (depths : List ℕ) : List LevelSpec :=
  (List.range depths.length).map fun i =>
    mkTransMambaLayer (dim * 2 ^ i) (depths.getD i 0)
      (decide (i = 0 ∨ i = 1)) (decide (i < 2))

/-- `depths` argument of the registered constructor `TransMamba_T`
(line 841). -/
def TransMamba_T_depths : List ℕ := [1, 3, 12]

/-- `depths` argument of the registered constructor `TransMamba_T2`
(line 874). -/
def TransMamba_T2_depths : List ℕ := [1, 3, 11, 4]

/-- `depths` argument of the registered constructor `TransMamba_S`
(line 899). -/
def TransMamba_S_depths : List ℕ := [3, 3, 7, 5]

/-- `depths` argument of the registered constructor `TransMamba_B`
(line 924). -/
def TransMamba_B_depths : List ℕ := [3, 3, 10, 5]

/-- `depths` argument of the registered constructor `TransMamba_L`
(line 951). -/
def TransMamba_L_depths : List ℕ := [3, 3, 10, 5]

/-- `depths` argument of the registered constructor `TransMamba_L2`
(line 978). -/
def TransMamba_L2_depths : List ℕ := [3, 3, 12, 5]

/-- C5 counterexample: `TransMamba_T` passes `depths=[1, 3, 12]`, so the
network it builds has 3 stages, not 4. -/
theorem transMamba_T_not_four_stages :
    (transMambaLevels 80 TransMamba_T_depths).length ≠ 4 := by decide

/-- C5 amended: the stage counts of the six registered constructors:
`TransMamba_T` builds 3 stages, the other five build 4. -/
theorem transMamba_stage_counts :
    (transMambaLevels 80 TransMamba_T_depths).length = 3 ∧
      (transMambaLevels 80 TransMamba_T2_depths).length = 4 ∧
      (transMambaLevels 96 TransMamba_S_depths).length = 4 ∧
      (transMambaLevels 128 TransMamba_B_depths).length = 4 ∧
      (transMambaLevels 196 TransMamba_L_depths).length = 4 ∧
      (transMambaLevels 196 TransMamba_L2_depths).length = 4 := by decide

/-- C6: in every `TransMamba`, stage `i` consists exclusively of
`ConvBlock`s when `i < 2` and exclusively of mixer-and-attention `Block`s
when `i ≥ 2`, and a `Downsample` is attached exactly when `i < 2`. -/
theorem transMamba_stage_composition (dim : ℕ) (depths : List ℕ) (i : ℕ)
    (hi : i < (transMambaLevels dim depths).length) :
    let lv := (transMambaLevels dim depths).getD i default
    (lv.conv = true ↔ i < 2) ∧
      (∀ bk ∈ lv.blocks, bk = BlockKind.conv ↔ i < 2) ∧
      (∀ bk ∈ lv.blocks, bk = BlockKind.transformer ↔ 2 ≤ i) ∧
      (lv.hasDownsample = true ↔ i < 2) := by
  intro lv
  have hlen : (transMambaLevels dim depths).length = depths.length := by
    simp [transMambaLevels]
  rw [hlen] at hi
  have hlv : lv = mkTransMambaLayer (dim * 2 ^ i) (depths.getD i 0)
      (decide (i = 0 ∨ i = 1)) (decide (i < 2)) := by
    show (transMambaLevels dim depths).getD i default = _
    rw [List.getD_eq_getElem _ _ (by simpa [transMambaLevels] using hi)]
    simp [transMambaLevels]
  rw [hlv]
  unfold mkTransMambaLayer
  by_cases h2 : i < 2
  · have hd : decide (i = 0 ∨ i = 1) = true := by
      simp only [decide_eq_true_eq]
      omega
    simp only [hd, if_true]
    refine ⟨by simp [h2], ?_, ?_, by simp [h2]⟩
    · intro bk hbk
      simp only [List.mem_replicate] at hbk
      simp [hbk.2, h2]
    · intro bk hbk
      simp only [List.mem_replicate] at hbk
      simp only [hbk.2]
      constructor
      · intro hc
        exact absurd hc (by decide)
      · intro hge
        omega
  · have hd : decide (i = 0 ∨ i = 1) = false := by
      simp only [decide_eq_false_iff_not]
      omega
    simp only [hd, Bool.false_eq_true, if_false]
    refine ⟨by simp [h2], ?_, ?_, by simp [h2]⟩
    · intro bk hbk
      simp only [List.mem_replicate] at hbk
      simp only [hbk.2]
      constructor
      · intro hc
        exact absurd hc (by decide)
      · intro hlt
        omega
    · intro bk hbk
      simp only [List.mem_replicate] at hbk
      simp only [hbk.2]
      constructor
      · intro _
        omega
      · intro _
        trivial

/-- Witness for `transMamba_stage_composition` at the `TransMamba_T2`
configuration, stage 2 (a mixer-and-attention stage). -/
theorem transMamba_stage_composition_witness :
    2 < (transMambaLevels 80 TransMamba_T2_depths).length ∧
      ((((transMambaLevels 80 TransMamba_T2_depths).getD 2 default).conv = true ↔ 2 < 2) ∧
        (∀ bk ∈ ((transMambaLevels 80 TransMamba_T2_depths).getD 2 default).blocks,
          bk = BlockKind.conv ↔ 2 < 2) ∧
        (∀ bk ∈ ((transMambaLevels 80 TransMamba_T2_depths).getD 2 default).blocks,
          bk = BlockKind.transformer ↔ 2 ≤ 2) ∧
        (((transMambaLevels 80 TransMamba_T2_depths).getD 2 default).hasDownsample = true ↔
          2 < 2)) :=
  ⟨by decide, transMamba_stage_composition 80 TransMamba_T2_depths 2 (by decide)⟩

/-- The token extraction of `TransMamba.forward_features` (lines 804-809):
from the normalized feature map `x` of shape `(B, C, H, W)` the four
feature vectors at the fixed spatial positions `(6, 6)`, `(6, 7)`,
`(7, 6)`, `(7, 7)` are taken (`x[:, :, 6, 6]` etc.), concatenated along a
new last axis and transposed to `z` of shape `(B, 4, C)`; `z[b, k, c]` is
the feature at channel `c` of the `k`-th position.  The `avgpool` branch
of the class is commented out in the source. -/
def extractTokens (x : Tens4 ℚ) : Tens3 ℚ :=
  { B := x.B
    L := 4
    C := x.C
    data := fun b k c =>
      if k = 0 then x.data b c 6 6
      else if k = 1 then x.data b c 6 7
      else if k = 2 then x.data b c 7 6
      else x.data b c 7 7 }

/-- Pooling over spatial positions as the repository itself defines it
(`self.avgpool = nn.AdaptiveAvgPool2d(1)`, line 770): the mean of the
feature map over all `H * W` spatial positions. -/
def spatialMean (x : Tens4 ℚ) (b c : ℕ) : ℚ :=
  (((List.range x.H).map fun h =>
      ((List.range x.W).map fun w => x.data b c h w).sum).sum) / (x.H * x.W)

/-- `TransMamba.forward` (lines 822-825): `forward_features` applied to
the input, then `head` applied to the result, and nothing after it. -/
def transMambaForward (forwardFeaturesF : Tens4 ℚ → ℕ → ℚ)
    (headF : (ℕ → ℚ) → ℕ → ℚ) (x : Tens4 ℚ) : ℕ → ℚ :=
  headF (forwardFeaturesF x)

/-- Concrete 14 x 14 normalized feature map holding 1 at spatial position
(6, 6) and 0 elsewhere. -/
def xTok : Tens4 ℚ :=
  { B := 1, C := 1, H := 14, W := 14
    data := fun _ _ h w => if h = 6 ∧ w = 6 then 1 else 0 }

/-- C7 counterexample: the tokens handed to the SoftSort reordering are
not pooled over spatial positions.  On `xTok` the first token equals the
value at position (6, 6), namely 1, while the spatial mean the
repository's own (commented-out) pooling layer would produce is 1/196. -/
theorem tokens_not_pooled :
    (extractTokens xTok).data 0 0 0 = 1 ∧
      spatialMean xTok 0 0 = 1 / 196 ∧
      (extractTokens xTok).data 0 0 0 ≠ spatialMean xTok 0 0 := by
  refine ⟨by decide, ?_, ?_⟩ <;> norm_num [spatialMean, xTok, extractTokens, List.range_succ]

/-- C7 amended: the token sequence reordered by the SoftSort permutation
consists of the feature vectors of the final normalized feature map at the
four central spatial positions (6, 6), (6, 7), (7, 6), (7, 7) - sampled,
not pooled - and the classification head is the last operation of
`forward`: `forward(x) = head(forward_features(x))`. -/
theorem forward_features_tokens (x : Tens4 ℚ) (b c : ℕ) :
    (extractTokens x).B = x.B ∧ (extractTokens x).L = 4 ∧
      (extractTokens x).C = x.C ∧
      (extractTokens x).data b 0 c = x.data b c 6 6 ∧
      (extractTokens x).data b 1 c = x.data b c 6 7 ∧
      (extractTokens x).data b 2 c = x.data b c 7 6 ∧
      (extractTokens x).data b 3 c = x.data b c 7 7 ∧
      (∀ (fF : Tens4 ℚ → ℕ → ℚ) (hF : (ℕ → ℚ) → ℕ → ℚ),
        transMambaForward fF hF x = hF (fF x)) :=
  ⟨rfl, rfl, rfl, rfl, rfl, rfl, rfl, fun _ _ => rfl⟩

/-- A 3-d shape (sizes only). -/
structure Sh3 where
  d0 : ℕ
  d1 : ℕ
  d2 : ℕ
deriving DecidableEq

/-- A 2-d shape (sizes only). -/
structure Sh2 where
  d0 : ℕ
  d1 : ℕ
deriving DecidableEq

/-- Shape behaviour of `nn.Linear(inF, outF)` on a 3-d input: acts on the
last axis, which must equal `inF`. -/
def linear3 (inF outF : ℕ) (s : Sh3) : Option Sh3 :=
  if s.d2 = inF then some ⟨s.d0, s.d1, outF⟩ else none

/-- Shape behaviour of `nn.Linear(inF, outF)` on a 2-d input. -/
def linear2 (inF outF : ℕ) (s : Sh2) : Option Sh2 :=
  if s.d1 = inF then some ⟨s.d0, outF⟩ else none

/-- `rearrange "b l d -> b d l"` and `rearrange "b d l -> b l d"`: swap the
last two axes. -/
def transp12 (s : Sh3) : Sh3 := ⟨s.d0, s.d2, s.d1⟩

/-- `xz.chunk(2, dim=1)` followed by unpacking into two tensors: torch
splits axis 1 into a first chunk of `ceil(n / 2)` rows and a remainder;
unpacking `x, z =` fails unless there really are two chunks. -/
def chunk2dim1 (s : Sh3) : Option (Sh3 × Sh3) :=
  let h := (s.d1 + 1) / 2
  if s.d1 - h = 0 then none else some (⟨s.d0, h, s.d2⟩, ⟨s.d0, s.d1 - h, s.d2⟩)

/-- Shape behaviour of `F.conv1d(input, weight, bias, padding='same',
groups)` with a `(outC, inC/groups, k)` weight: the channel axis must
equal `inC`, `groups` must divide `inC`, and same-padding preserves the
length. -/
def conv1dSame (inC outC groups : ℕ) (s : Sh3) : Option Sh3 :=
  if s.d1 = inC ∧ groups ≠ 0 ∧ inC % groups = 0 then some ⟨s.d0, outC, s.d2⟩
  else none

/-- `rearrange "b d l -> (b l) d"`. -/
def flatten02 (s : Sh3) : Sh2 := ⟨s.d0 * s.d2, s.d1⟩

/-- `rearrange "(b l) d -> b d l"` with `l = seqlen`: the flat batch axis
must factor as `b * l`. -/
def unflatten (b l : ℕ) (s : Sh2) : Option Sh3 :=
  if s.d0 = b * l then some ⟨b, s.d1, l⟩ else none

/-- `torch.split(x_dbl, [dt_rank, d_state, d_state], dim=-1)`: the last
axis must be exactly the sum of the three parts. -/
def split3dim1 (n1 n2 n3 : ℕ) (s : Sh2) : Option (Sh2 × Sh2 × Sh2) :=
  if s.d1 = n1 + n2 + n3 then some (⟨s.d0, n1⟩, ⟨s.d0, n2⟩, ⟨s.d0, n3⟩)
  else none

/-- Shape behaviour of `selective_scan_fn(u, delta, A, B, C, D, ...)`:
`u` and `delta` are `(b, d, l)`, `A` is `(d, n)`, `B` and `C` are
`(b, n, l)`, `D` has length `d`; the output has the shape of `u`. -/
def selectiveScanShape (u delta : Sh3) (A : Sh2) (Bm Cm : Sh3) (D : ℕ) :
    Option Sh3 :=
  if delta = u ∧ A.d0 = u.d1 ∧ D = u.d1 ∧ Bm = ⟨u.d0, A.d1, u.d2⟩ ∧ Cm = Bm
  then some u else none

/-- `torch.cat([y, z], dim=1)`: the other two axes must agree. -/
def cat1 (s t : Sh3) : Option Sh3 :=
  if s.d0 = t.d0 ∧ s.d2 = t.d2 then some ⟨s.d0, s.d1 + t.d1, s.d2⟩ else none

/-- Shape-level translation of `MambaVisionMixer.forward` (lines 400-432)
with the module dimensions of `__init__` (lines 322-398):
`d_inner = expand * d_model`, `dt_rank = ceil(d_model / 16)`,
`in_proj : d_model -> d_inner`, depthwise convolutions on `d_inner // 2`
channels, `x_proj : d_inner // 2 -> dt_rank + 2 * d_state`,
`dt_proj : dt_rank -> d_inner // 2`, `A` of shape `(d_inner // 2,
d_state)`, `D` of length `d_inner // 2`, `out_proj : d_inner -> d_model`. -/
def mixerForwardShape (d_model d_state expand : ℕ) (s : Sh3) : Option Sh3 := do
  let d_inner := expand * d_model
  let dt_rank := (d_model + 15) / 16
  let seqlen := s.d1
  let xz ← linear3 d_model d_inner s
  let xzT := transp12 xz
  let (x0, z0) ← chunk2dim1 xzT
  let x1 ← conv1dSame (d_inner / 2) (d_inner / 2) (d_inner / 2) x0
  let z1 ← conv1dSame (d_inner / 2) (d_inner / 2) (d_inner / 2) z0
  let xdbl ← linear2 (d_inner / 2) (dt_rank + d_state * 2) (flatten02 x1)
  let (dt0, b0, c0) ← split3dim1 dt_rank d_state d_state xdbl
  let dt1 ← linear2 dt_rank (d_inner / 2) dt0
  let dt2 ← unflatten s.d0 seqlen dt1
  let bM ← unflatten s.d0 seqlen b0
  let cM ← unflatten s.d0 seqlen c0
  let y ← selectiveScanShape x1 dt2 ⟨d_inner / 2, d_state⟩ bM cM (d_inner / 2)
  let y2 ← cat1 y z1
  linear3 d_inner d_model (transp12 y2)

/-- C8: `MambaVisionMixer.forward` is shape-preserving: on any input of
shape `(B, L, d_model)`, provided the inner dimension
`d_inner = expand * d_model` is positive and even (as in every
configuration the repository instantiates), every intermediate shape
constraint is satisfied and the output shape is again `(B, L, d_model)`. -/
theorem mixerForwardShape_preserved (d_model d_state expand B L : ℕ)
    (hpos : 0 < expand * d_model) (hev : expand * d_model % 2 = 0) :
    mixerForwardShape d_model d_state expand ⟨B, L, d_model⟩ =
      some ⟨B, L, d_model⟩ := by
  have h2 : (expand * d_model + 1) / 2 = expand * d_model / 2 := by omega
  have h3 : expand * d_model - (expand * d_model + 1) / 2 = expand * d_model / 2 := by
    omega
  have h4 : ¬(expand * d_model / 2 = 0) := by omega
  have h6 : expand * d_model / 2 + expand * d_model / 2 = expand * d_model := by
    omega
  show (linear3 d_model (expand * d_model) ⟨B, L, d_model⟩).bind _ = _
  rw [show linear3 d_model (expand * d_model) ⟨B, L, d_model⟩ =
      some ⟨B, L, expand * d_model⟩ from by simp [linear3]]
  simp only [Option.bind_eq_bind', Option.some_bind]
  show (chunk2dim1 (transp12 ⟨B, L, expand * d_model⟩)).bind _ = _
  rw [show chunk2dim1 (transp12 ⟨B, L, expand * d_model⟩) =
      some (⟨B, expand * d_model / 2, L⟩, ⟨B, expand * d_model / 2, L⟩) from by
    simp only [chunk2dim1, transp12]
    rw [h3, h2]
    simp [h4]]
  simp only [Option.bind_eq_bind', Option.some_bind]
  show (conv1dSame (expand * d_model / 2) (expand * d_model / 2)
      (expand * d_model / 2) ⟨B, expand * d_model / 2, L⟩).bind _ = _
  rw [show conv1dSame (expand * d_model / 2) (expand * d_model / 2)
        (expand * d_model / 2) ⟨B, expand * d_model / 2, L⟩ =
      some ⟨B, expand * d_model / 2, L⟩ from by
    simp [conv1dSame, h4, Nat.mod_self]]
  simp only [Option.bind_eq_bind', Option.some_bind]
  show (linear2 (expand * d_model / 2) ((d_model + 15) / 16 + d_state * 2)
      (flatten02 ⟨B, expand * d_model / 2, L⟩)).bind _ = _
  rw [show linear2 (expand * d_model / 2) ((d_model + 15) / 16 + d_state * 2)
        (flatten02 ⟨B, expand * d_model / 2, L⟩) =
      some ⟨B * L, (d_model + 15) / 16 + d_state * 2⟩ from by
    simp [linear2, flatten02]]
  simp only [Option.bind_eq_bind', Option.some_bind]
  show (split3dim1 ((d_model + 15) / 16) d_state d_state
      ⟨B * L, (d_model + 15) / 16 + d_state * 2⟩).bind _ = _
  rw [show split3dim1 ((d_model + 15) / 16) d_state d_state
        ⟨B * L, (d_model + 15) / 16 + d_state * 2⟩ =
      some (⟨B * L, (d_model + 15) / 16⟩, ⟨B * L, d_state⟩, ⟨B * L, d_state⟩) from by
    simp only [split3dim1]
    rw [if_pos (by omega)]]
  simp only [Option.bind_eq_bind', Option.some_bind]
  show (linear2 ((d_model + 15) / 16) (expand * d_model / 2)
      ⟨B * L, (d_model + 15) / 16⟩).bind _ = _
  rw [show linear2 ((d_model + 15) / 16) (expand * d_model / 2)
        ⟨B * L, (d_model + 15) / 16⟩ = some ⟨B * L, expand * d_model / 2⟩ from by
    simp [linear2]]
  simp only [Option.bind_eq_bind', Option.some_bind]
  show (unflatten B L ⟨B * L, expand * d_model / 2⟩).bind _ = _
  rw [show unflatten B L ⟨B * L, expand * d_model / 2⟩ =
      some ⟨B, expand * d_model / 2, L⟩ from by simp [unflatten]]
  simp only [Option.bind_eq_bind', Option.some_bind]
  show (unflatten B L ⟨B * L, d_state⟩).bind _ = _
  rw [show unflatten B L ⟨B * L, d_state⟩ = some ⟨B, d_state, L⟩ from by
    simp [unflatten]]
  simp only [Option.bind_eq_bind', Option.some_bind]
  show (selectiveScanShape ⟨B, expand * d_model / 2, L⟩
      ⟨B, expand * d_model / 2, L⟩ ⟨expand * d_model / 2, d_state⟩
      ⟨B, d_state, L⟩ ⟨B, d_state, L⟩ (expand * d_model / 2)).bind _ = _
  rw [show selectiveScanShape ⟨B, expand * d_model / 2, L⟩
        ⟨B, expand * d_model / 2, L⟩ ⟨expand * d_model / 2, d_state⟩
        ⟨B, d_state, L⟩ ⟨B, d_state, L⟩ (expand * d_model / 2) =
      some ⟨B, expand * d_model / 2, L⟩ from by simp [selectiveScanShape]]
  simp only [Option.bind_eq_bind', Option.some_bind]
  show (cat1 ⟨B, expand * d_model / 2, L⟩ ⟨B, expand * d_model / 2, L⟩).bind _ = _
  rw [show cat1 ⟨B, expand * d_model / 2, L⟩ ⟨B, expand * d_model / 2, L⟩ =
      some ⟨B, expand * d_model, L⟩ from by simp [cat1, h6]]
  simp only [Option.bind_eq_bind', Option.some_bind]
  show linear3 (expand * d_model) d_model (transp12 ⟨B, expand * d_model, L⟩) = _
  simp [linear3, transp12]

/-- Witness for `mixerForwardShape_preserved`: `d_model = 4`,
`d_state = 8`, `expand = 2`, input shape (2, 3, 4). -/
theorem mixerForwardShape_preserved_witness :
    0 < 2 * 4 ∧ 2 * 4 % 2 = 0 ∧
      mixerForwardShape 4 8 2 ⟨2, 3, 4⟩ = some ⟨2, 3, 4⟩ :=
  ⟨by decide, by decide, mixerForwardShape_preserved 4 8 2 2 3 (by decide) (by decide)⟩

/-- Modelled from the spec: `module._load_from_state_dict` is
`torch.nn.Module` functionality, not part of this repository.  Per the
claim text, it records as unexpected the checkpoint keys that match no
module entry.  Keys are compared flat (the recursive prefix walk of
`load` visits every submodule). -/
def unexpectedKeys (moduleKeys stateKeys : List String) : List String :=
  stateKeys.filter fun k => !(moduleKeys.contains k)

/-- Modelled from the spec: the `all_missing_keys` list filled by
`torch.nn.Module._load_from_state_dict` - the module entries that the
checkpoint does not provide. -/
def allMissingKeys (moduleKeys stateKeys : List String) : List String :=
  moduleKeys.filter fun k => !(stateKeys.contains k)

/-- Boolean infix test on character lists, modelling the Python
substring operator `in`. -/
def charsInfix (needle : List Char) : List Char → Bool
  | [] => needle.isEmpty
  | c :: t => needle.isPrefixOf (c :: t) || charsInfix needle t

/-- The filter of `_load_state_dict` (lines 165-167): missing keys are
reported only when the key does not contain the substring
`num_batches_tracked`. -/
def missingKeys (moduleKeys stateKeys : List String) : List String :=
  (allMissingKeys moduleKeys stateKeys).filter fun k =>
    !(charsInfix "num_batches_tracked".toList k.toList)

/-- Outcome of `_load_state_dict`: whether a `RuntimeError` was raised,
and whether the mismatch message was merely logged or printed instead. -/
structure LoadOutcome where
  raised : Bool
  warned : Bool
deriving DecidableEq

/-- `_load_state_dict` (lines 128-186): after collecting unexpected and
(filtered) missing keys, an error message is assembled when either list is
nonempty; with `strict` true it is raised as a `RuntimeError`, otherwise
it is given to the logger or printed. -/
def loadStateDict (moduleKeys stateKeys : List String) (strict : Bool) : LoadOutcome :=
  let errNonempty :=
    !(unexpectedKeys moduleKeys stateKeys).isEmpty ||
      !(missingKeys moduleKeys stateKeys).isEmpty
  { raised := strict && errNonempty
    warned := !strict && errNonempty }

/-- The shape of the object `torch.load` returns: either a (state) dict
mapping names to further objects, or some non-dict object such as a bare
tensor. -/
inductive TorchObj where
  | tensor
  | dict (entries : List (String × TorchObj))

/-- The exceptions the checkpoint-loading path can raise. -/
inductive LoadErr where
  | runtimeErrorNoStateDict
  | runtimeErrorMismatch
  | indexError
  | attributeError
deriving DecidableEq

/-- The minimum of a nonempty list of keys under the lexicographic string
order: `sorted(list(keys))[0]`. -/
def minKey (k0 : String) (ks : List String) : String :=
  ks.foldl (fun a b => if b < a then b else a) k0

/-- `_load_checkpoint` (lines 189-226): raise `RuntimeError` when the
loaded object is not a dict; select `checkpoint['state_dict']`, else
`checkpoint['model']`, else the checkpoint itself; strip a `module.`
prefix from all keys when the first key starts with it; keep only
`encoder.`-keys, stripped, when the smallest key starts with `encoder`;
then run `_load_state_dict` (whose `RuntimeError` propagates) and return
the checkpoint.  Indexing `list(keys)[0]` of an empty dict raises
`IndexError`, and calling `.keys()` on a non-dict raises
`AttributeError`. -/
def loadCheckpoint (moduleKeys : List String) (checkpoint : TorchObj)
    (strict : Bool) : Except LoadErr TorchObj :=
  match checkpoint with
  | .tensor => .error .runtimeErrorNoStateDict
  | .dict entries =>
    let sdObj : TorchObj :=
      match entries.lookup "state_dict" with
      | some v => v
      | none =>
        match entries.lookup "model" with
        | some v => v
        | none => .dict entries
    match sdObj with
    | .tensor => .error .attributeError
    | .dict sdEntries =>
      match sdEntries.map Prod.fst with
      | [] => .error .indexError
      | k0 :: krest =>
        let keys0 := k0 :: krest
        let keys1 :=
          if k0.startsWith "module." then keys0.map fun k => k.drop 7 else keys0
        let keys2 :=
          match keys1 with
          | [] => keys1
          | k1 :: krest1 =>
            if (minKey k1 krest1).startsWith "encoder" then
              (keys1.filter fun k => k.startsWith "encoder.").map fun k =>
                k.replace "encoder." ""
            else keys1
        if (loadStateDict moduleKeys keys2 strict).raised then
          .error .runtimeErrorMismatch
        else .ok checkpoint

/-- C10: error behaviour of the checkpoint-loading helpers.
`_load_checkpoint` raises `RuntimeError` when the loaded object is not a
dict; `_load_state_dict` raises exactly when `strict` is true and there is
a key mismatch (unexpected keys, or missing keys other than
`num_batches_tracked` entries); with `strict` false nothing is raised and
the mismatch is only logged or printed. -/
theorem load_error_behaviour :
    (∀ (mk : List String) (strict : Bool),
        loadCheckpoint mk TorchObj.tensor strict =
          Except.error LoadErr.runtimeErrorNoStateDict) ∧
      (∀ mk sk : List String,
        (loadStateDict mk sk true).raised =
          (!(unexpectedKeys mk sk).isEmpty || !(missingKeys mk sk).isEmpty)) ∧
      (∀ mk sk : List String, (loadStateDict mk sk false).raised = false) ∧
      (∀ mk sk : List String,
        (loadStateDict mk sk false).warned =
          (!(unexpectedKeys mk sk).isEmpty || !(missingKeys mk sk).isEmpty)) := by
  refine ⟨fun mk strict => rfl, fun mk sk => ?_, fun mk sk => rfl, fun mk sk => ?_⟩ <;>
    simp [loadStateDict]

/-- The descending order used by `scores.sort(descending=True)` is total. -/
instance : IsTotal ℚ (fun a b => b ≤ a) := ⟨fun a b => le_total b a⟩

/-- The descending order used by `scores.sort(descending=True)` is transitive. -/
instance : IsTrans ℚ (fun a b => b ≤ a) := ⟨fun _ _ _ hab hbc => le_trans hbc hab⟩

/-- `scores.sort(descending=True, dim=1)[0]` on one batch row (SoftSort.forward,
line 44): the scores in descending order. -/
def sortDesc (s : List ℚ) : List ℚ := List.insertionSort (fun a b => b ≤ a) s

/-- `P_hat.topk(1, -1)[1]` on one row (SoftSort.forward, line 50): the index
of the largest entry (the first such index if several are equal).  Because
`softmax` is strictly monotone on a row - `x ↦ exp x / Σ exp` preserves the
order of the entries - the top-1 index of the softmax row `P_hat[i]` equals
the top-1 index of the pre-softmax row `pairwise_diff[i]`, so the embedding
takes the argmax of the logits directly (real `exp` has no exact executable
form). -/
def argmaxIdx : List ℚ → ℕ
  | [] => 0
  | [_] => 0
  | x :: y :: ys =>
    if (y :: ys).getD (argmaxIdx (y :: ys)) 0 ≤ x then 0 else argmaxIdx (y :: ys) + 1

theorem argmaxIdx_lt_length : ∀ l : List ℚ, l ≠ [] → argmaxIdx l < l.length := by
  intro l
  induction l with
  | nil => intro h; exact absurd rfl h
  | cons x xs ih =>
    intro _
    cases xs with
    | nil => simp [argmaxIdx]
    | cons y ys =>
      simp only [argmaxIdx]
      split_ifs
      · simp
      · have := ih (by simp)
        simpa using Nat.succ_lt_succ this

theorem getD_le_argmax (l : List ℚ) (j : ℕ) (hj : j < l.length) :
    l.getD j 0 ≤ l.getD (argmaxIdx l) 0 := by
  induction l generalizing j with
  | nil => simp at hj
  | cons x xs ih =>
    cases xs with
    | nil =>
      simp only [List.length_singleton] at hj
      have : j = 0 := by omega
      subst this
      simp [argmaxIdx]
    | cons y ys =>
      simp only [argmaxIdx]
      split_ifs with hle
      · -- head is max
        cases j with
        | zero => simp
        | succ j' =>
          have hj' : j' < (y :: ys).length := by simpa using hj
          calc (x :: y :: ys).getD (j' + 1) 0 = (y :: ys).getD j' 0 := by simp
            _ ≤ (y :: ys).getD (argmaxIdx (y :: ys)) 0 := ih j' hj'
            _ ≤ x := hle
            _ = (x :: y :: ys).getD 0 0 := by simp
      · push_neg at hle
        cases j with
        | zero =>
          simpa using le_of_lt hle
        | succ j' =>
          have hj' : j' < (y :: ys).length := by simpa using hj
          simpa using ih j' hj'

theorem argmaxIdx_eq_of_forall_lt (l : List ℚ) (k : ℕ) (hk : k < l.length)
    (hmax : ∀ j, j < l.length → j ≠ k → l.getD j 0 < l.getD k 0) :
    argmaxIdx l = k := by
  have hne : l ≠ [] := by
    cases l
    · simp at hk
    · simp
  by_contra hne'
  have h1 := getD_le_argmax l k hk
  have h2 := hmax (argmaxIdx l) (argmaxIdx_lt_length l hne) (fun h => hne' h)
  exact absurd h1 (not_le.2 h2)

/-- A row of `torch.zeros_like` (SoftSort.forward, line 49). -/
def zerosList : ℕ → List ℚ
  | 0 => []
  | n + 1 => 0 :: zerosList n

/-- One row after `P.scatter_(-1, indices, value=1)` on the zero matrix
(SoftSort.forward, line 50): 1 at the selected column, 0 elsewhere.  With
`hard=True` the returned value is `(P - P_hat).detach() + P_hat`, whose
forward value is exactly `P` (the detach only affects gradients). -/
def oneHot : ℕ → ℕ → List ℚ
  | 0, _ => []
  | n + 1, 0 => 1 :: zerosList n
  | n + 1, j + 1 => 0 :: oneHot n j

theorem zerosList_length (n : ℕ) : (zerosList n).length = n := by
  induction n with
  | zero => rfl
  | succ n ih => simp [zerosList, ih]

theorem oneHot_length (n j : ℕ) : (oneHot n j).length = n := by
  induction n generalizing j with
  | zero => rfl
  | succ n ih =>
    cases j with
    | zero => simp [oneHot, zerosList_length]
    | succ j' => simp [oneHot, ih]

theorem zerosList_getD (n j : ℕ) : (zerosList n).getD j 0 = 0 := by
  induction n generalizing j with
  | zero => simp [zerosList]
  | succ n ih =>
    cases j with
    | zero => simp [zerosList]
    | succ j' =>
      show (0 :: zerosList n).getD (j' + 1) 0 = 0
      rw [List.getD_cons_succ]
      exact ih j'

theorem oneHot_getD (n j j' : ℕ) (hj' : j' < n) :
    (oneHot n j).getD j' 0 = if j' = j then 1 else 0 := by
  induction n generalizing j j' with
  | zero => omega
  | succ n ih =>
    cases j with
    | zero =>
      cases j' with
      | zero => simp [oneHot]
      | succ k =>
        show (1 :: zerosList n).getD (k + 1) 0 = if k + 1 = 0 then 1 else 0
        rw [List.getD_cons_succ, zerosList_getD]
        simp
    | succ j0 =>
      cases j' with
      | zero => simp [oneHot]
      | succ k =>
        have hk : k < n := by omega
        simp only [oneHot, List.getD_cons_succ]
        rw [ih j0 k hk]
        by_cases h : k = j0 <;> simp [h]

theorem zerosList_mem (e : ℚ) (n : ℕ) (h : e ∈ zerosList n) : e = 0 := by
  induction n with
  | zero => simp [zerosList] at h
  | succ n ih =>
    simp only [zerosList, List.mem_cons] at h
    rcases h with h | h
    · exact h
    · exact ih h

theorem oneHot_mem (e : ℚ) (n j : ℕ) (h : e ∈ oneHot n j) : e = 0 ∨ e = 1 := by
  induction n generalizing j with
  | zero => simp [oneHot] at h
  | succ n ih =>
    cases j with
    | zero =>
      simp only [oneHot, List.mem_cons] at h
      rcases h with h | h
      · exact Or.inr h
      · exact Or.inl (zerosList_mem e n h)
    | succ j0 =>
      simp only [oneHot, List.mem_cons] at h
      rcases h with h | h
      · exact Or.inl h
      · exact ih j0 h

/-- Dot product of a matrix row with the score vector (row of `P @ scores`). -/
def dotQ (r v : List ℚ) : ℚ := (List.zipWith (fun a b => a * b) r v).sum

/-- Matrix-vector product `P @ scores` for one batch element. -/
def matVec (P : List (List ℚ)) (v : List ℚ) : List ℚ := P.map fun r => dotQ r v

theorem dotQ_zeros (n : ℕ) (v : List ℚ) : dotQ (zerosList n) v = 0 := by
  induction n generalizing v with
  | zero => simp [dotQ, zerosList]
  | succ n ih =>
    cases v with
    | nil => simp [dotQ]
    | cons a t =>
      simp only [dotQ, zerosList, List.zipWith_cons_cons, List.sum_cons, zero_mul,
        zero_add]
      exact ih t

theorem dotQ_oneHot (s : List ℚ) (j : ℕ) (hj : j < s.length) :
    dotQ (oneHot s.length j) s = s.getD j 0 := by
  induction s generalizing j with
  | nil => simp at hj
  | cons a t ih =>
    cases j with
    | zero =>
      show dotQ (1 :: zerosList t.length) (a :: t) = a
      simp only [dotQ, List.zipWith_cons_cons, List.sum_cons, one_mul]
      have := dotQ_zeros t.length t
      simp only [dotQ] at this
      rw [this, add_zero]
    | succ j0 =>
      have hj0 : j0 < t.length := by simpa using hj
      show dotQ (0 :: oneHot t.length j0) (a :: t) = t.getD j0 0
      simp only [dotQ, List.zipWith_cons_cons, List.sum_cons, zero_mul, zero_add]
      exact ih j0 hj0

/-- Row `i` of `pairwise_diff` (SoftSort.forward, line 45) for the sorted
value `v = sorted[i]`: entry `j` is `-(|scores[j] - v| ** pow) / tau`.  The
`pow` exponent is modelled as a natural number (the module default and the
repository instantiation use `pow=1.0`). -/
def pairwiseDiffRow (tau : ℚ) (p : ℕ) (s : List ℚ) (v : ℚ) : List ℚ :=
  s.map fun sj => -(|sj - v| ^ p) / tau

/-- `SoftSort.forward` with `hard=True` on one batch row (lines 39-52):
row `i` of the returned matrix is the one-hot row selecting the column at
which the softmax of `pairwise_diff[i]` is largest, i.e. at which
`pairwise_diff[i]` itself is largest. -/
def softSortHard (tau : ℚ) (p : ℕ) (s : List ℚ) : List (List ℚ) :=
  (sortDesc s).map fun v => oneHot s.length (argmaxIdx (pairwiseDiffRow tau p s v))

theorem pairwiseDiffRow_length (tau : ℚ) (p : ℕ) (s : List ℚ) (v : ℚ) :
    (pairwiseDiffRow tau p s v).length = s.length := by
  simp [pairwiseDiffRow]

theorem pairwiseDiffRow_getD (tau : ℚ) (p : ℕ) (s : List ℚ) (v : ℚ) (j : ℕ)
    (hj : j < s.length) :
    (pairwiseDiffRow tau p s v).getD j 0 = -(|s.getD j 0 - v| ^ p) / tau := by
  rw [List.getD_eq_getElem _ _ (by simpa [pairwiseDiffRow] using hj)]
  rw [List.getD_eq_getElem _ _ hj]
  simp [pairwiseDiffRow]

theorem sortDesc_perm (s : List ℚ) : (sortDesc s).Perm s :=
  List.perm_insertionSort _ s

theorem sortDesc_sorted (s : List ℚ) :
    List.Sorted (fun a b => b ≤ a) (sortDesc s) :=
  List.sorted_insertionSort _ s

theorem sortDesc_length (s : List ℚ) : (sortDesc s).length = s.length :=
  (sortDesc_perm s).length_eq

theorem sortDesc_nodup (s : List ℚ) (h : s.Nodup) : (sortDesc s).Nodup :=
  ((sortDesc_perm s).nodup_iff).2 h

theorem argmax_row_eq_indexOf (tau : ℚ) (p : ℕ) (s : List ℚ) (v : ℚ)
    (htau : 0 < tau) (hp : 0 < p) (hnd : s.Nodup) (hv : v ∈ s) :
    argmaxIdx (pairwiseDiffRow tau p s v) = s.indexOf v := by
  have hidx : s.indexOf v < s.length := List.indexOf_lt_length.2 hv
  apply argmaxIdx_eq_of_forall_lt
  · rw [pairwiseDiffRow_length]
    exact hidx
  · intro j hj hne
    rw [pairwiseDiffRow_length] at hj
    rw [pairwiseDiffRow_getD _ _ _ _ _ hj, pairwiseDiffRow_getD _ _ _ _ _ hidx]
    have hval : s.getD (s.indexOf v) 0 = v := by
      rw [List.getD_eq_getElem _ _ hidx]
      exact List.getElem_indexOf hidx
    rw [hval, sub_self, abs_zero, zero_pow hp.ne', neg_zero, zero_div]
    have hne' : s.getD j 0 ≠ v := by
      intro he
      apply hne
      have h1 : s.get ⟨j, hj⟩ = v := by
        rw [List.getD_eq_getElem _ _ hj] at he
        simpa using he
      have h2 : s.get ⟨s.indexOf v, hidx⟩ = v := by
        simpa using List.getElem_indexOf hidx
      have h3 : s.get ⟨j, hj⟩ = s.get ⟨s.indexOf v, hidx⟩ := by rw [h1, h2]
      have h4 := hnd.get_inj_iff.1 h3
      exact congrArg Fin.val h4
    have habs : 0 < |s.getD j 0 - v| := abs_pos.2 (sub_ne_zero.2 hne')
    have hpow : 0 < |s.getD j 0 - v| ^ p := pow_pos habs p
    exact div_neg_of_neg_of_pos (neg_lt_zero.2 hpow) htau

theorem softSortHard_row (tau : ℚ) (p : ℕ) (s : List ℚ) (i : ℕ)
    (hi : i < s.length) :
    (softSortHard tau p s).getD i [] =
      oneHot s.length
        (argmaxIdx (pairwiseDiffRow tau p s ((sortDesc s).getD i 0))) := by
  have hi' : i < (sortDesc s).length := by rw [sortDesc_length]; exact hi
  have hlen : i < (softSortHard tau p s).length := by
    simp [softSortHard, sortDesc_length, hi]
  rw [List.getD_eq_getElem _ _ hlen]
  rw [List.getD_eq_getElem _ _ hi']
  simp [softSortHard]

/-- C2: with `hard=True` and pairwise-distinct scores, `SoftSort.forward`
returns a square 0/1 matrix with exactly one 1 in every row and every
column (a permutation matrix), and multiplying it with the score vector
yields the scores sorted in descending order. -/
theorem softSortHard_permutation (tau : ℚ) (p : ℕ) (s : List ℚ)
    (htau : 0 < tau) (hp : 0 < p) (hnd : s.Nodup) :
    (softSortHard tau p s).length = s.length ∧
      (∀ r ∈ softSortHard tau p s, r.length = s.length) ∧
      (∀ r ∈ softSortHard tau p s, ∀ e ∈ r, e = 0 ∨ e = 1) ∧
      (∀ i, i < s.length →
        ∃! j, j < s.length ∧ ((softSortHard tau p s).getD i []).getD j 0 = 1) ∧
      (∀ j, j < s.length →
        ∃! i, i < s.length ∧ ((softSortHard tau p s).getD i []).getD j 0 = 1) ∧
      matVec (softSortHard tau p s) s = sortDesc s ∧
      List.Sorted (fun a b => b ≤ a) (matVec (softSortHard tau p s) s) ∧
      (matVec (softSortHard tau p s) s).Perm s := by
  have hsl := sortDesc_length s
  have hsnd := sortDesc_nodup s hnd
  -- the hot position of row i is the index in s of the i-th largest value
  have hrow : ∀ i, ∀ hi : i < s.length,
      (softSortHard tau p s).getD i [] =
        oneHot s.length (s.indexOf ((sortDesc s).getD i 0)) := by
    intro i hi
    have hi' : i < (sortDesc s).length := by rw [hsl]; exact hi
    have hmem : (sortDesc s).getD i 0 ∈ s := by
      rw [List.getD_eq_getElem _ _ hi']
      exact (sortDesc_perm s).mem_iff.1 (List.getElem_mem _)
    rw [softSortHard_row tau p s i hi,
      argmax_row_eq_indexOf tau p s _ htau hp hnd hmem]
  have hhotlt : ∀ i, ∀ hi : i < s.length,
      s.indexOf ((sortDesc s).getD i 0) < s.length := by
    intro i hi
    have hi' : i < (sortDesc s).length := by rw [hsl]; exact hi
    apply List.indexOf_lt_length.2
    rw [List.getD_eq_getElem _ _ hi']
    exact (sortDesc_perm s).mem_iff.1 (List.getElem_mem _)
  have hmv : matVec (softSortHard tau p s) s = sortDesc s := by
    unfold matVec softSortHard
    rw [List.map_map]
    have hvv : ∀ v ∈ sortDesc s,
        (fun r => dotQ r s) (oneHot s.length (argmaxIdx (pairwiseDiffRow tau p s v)))
          = v := by
      intro v hv
      have hvs : v ∈ s := (sortDesc_perm s).mem_iff.1 hv
      have hlt : s.indexOf v < s.length := List.indexOf_lt_length.2 hvs
      show dotQ (oneHot s.length (argmaxIdx (pairwiseDiffRow tau p s v))) s = v
      rw [argmax_row_eq_indexOf tau p s v htau hp hnd hvs, dotQ_oneHot s _ hlt,
        List.getD_eq_getElem _ _ hlt]
      exact List.getElem_indexOf hlt
    calc (sortDesc s).map ((fun r => dotQ r s) ∘
          fun v => oneHot s.length (argmaxIdx (pairwiseDiffRow tau p s v)))
        = (sortDesc s).map id := List.map_congr_left hvv
      _ = sortDesc s := List.map_id _
  refine ⟨by simp [softSortHard, hsl], ?_, ?_, ?_, ?_, ?_, ?_, ?_⟩
  · intro r hr
    simp only [softSortHard, List.mem_map] at hr
    obtain ⟨v, _, rfl⟩ := hr
    exact oneHot_length _ _
  · intro r hr e he
    simp only [softSortHard, List.mem_map] at hr
    obtain ⟨v, _, rfl⟩ := hr
    exact oneHot_mem e _ _ he
  · -- one 1 per row
    intro i hi
    refine ⟨s.indexOf ((sortDesc s).getD i 0), ⟨hhotlt i hi, ?_⟩, ?_⟩
    · rw [hrow i hi, oneHot_getD _ _ _ (hhotlt i hi)]
      simp
    · intro j hj
      rw [hrow i hi, oneHot_getD _ _ _ hj.1] at hj
      rcases hj with ⟨-, hj2⟩
      by_contra hne
      rw [if_neg hne] at hj2
      exact absurd hj2 (by norm_num)
  · -- one 1 per column
    intro j hj
    have hjmem : s.getD j 0 ∈ sortDesc s := by
      rw [(sortDesc_perm s).mem_iff, List.getD_eq_getElem _ _ hj]
      exact List.getElem_mem _
    have hi0 : (sortDesc s).indexOf (s.getD j 0) < (sortDesc s).length :=
      List.indexOf_lt_length.2 hjmem
    have hi0' : (sortDesc s).indexOf (s.getD j 0) < s.length := by
      rw [← hsl]; exact hi0
    have hval : (sortDesc s).getD ((sortDesc s).indexOf (s.getD j 0)) 0 =
        s.getD j 0 := by
      rw [List.getD_eq_getElem _ _ hi0]
      exact List.getElem_indexOf hi0
    have hback : s.indexOf (s.getD j 0) = j := by
      have hjm : s.getD j 0 ∈ s := by
        rw [List.getD_eq_getElem _ _ hj]
        exact List.getElem_mem _
      have hlt : s.indexOf (s.getD j 0) < s.length := List.indexOf_lt_length.2 hjm
      have h1 : s.get ⟨s.indexOf (s.getD j 0), hlt⟩ = s.getD j 0 := by
        simpa using List.getElem_indexOf hlt
      have h2 : s.get ⟨j, hj⟩ = s.getD j 0 := by
        rw [List.get_eq_getElem, List.getD_eq_getElem _ _ hj]
      have h3 : s.get ⟨s.indexOf (s.getD j 0), hlt⟩ = s.get ⟨j, hj⟩ := by
        rw [h1, h2]
      exact congrArg Fin.val (hnd.get_inj_iff.1 h3)
    refine ⟨(sortDesc s).indexOf (s.getD j 0), ⟨hi0', ?_⟩, ?_⟩
    · rw [hrow _ hi0', hval, hback, oneHot_getD _ _ _ hj]
      simp
    · intro i hi
      rcases hi with ⟨hi1, hi2⟩
      rw [hrow i hi1, oneHot_getD _ _ _ hj] at hi2
      have hji : j = s.indexOf ((sortDesc s).getD i 0) := by
        by_contra hne
        rw [if_neg hne] at hi2
        exact absurd hi2 (by norm_num)
      -- hence (sortDesc s)[i] = s[j], and by nodup of sortDesc, i is determined
      have hi' : i < (sortDesc s).length := by rw [hsl]; exact hi1
      have hmemi : (sortDesc s).getD i 0 ∈ s := by
        rw [List.getD_eq_getElem _ _ hi']
        exact (sortDesc_perm s).mem_iff.1 (List.getElem_mem _)
      have hlt2 : s.indexOf ((sortDesc s).getD i 0) < s.length :=
        List.indexOf_lt_length.2 hmemi
      have hveq : (sortDesc s).getD i 0 = s.getD j 0 := by
        have hsv := List.getElem_indexOf hlt2
        rw [hji, List.getD_eq_getElem _ _ hlt2]
        exact hsv.symm
      have h3 : (sortDesc s).get ⟨i, hi'⟩ =
          (sortDesc s).get ⟨(sortDesc s).indexOf (s.getD j 0), hi0⟩ := by
        have ha : (sortDesc s).get ⟨i, hi'⟩ = s.getD j 0 := by
          rw [← hveq, List.get_eq_getElem, List.getD_eq_getElem _ _ hi']
        have hb : (sortDesc s).get ⟨(sortDesc s).indexOf (s.getD j 0), hi0⟩ =
            s.getD j 0 := by
          simpa using List.getElem_indexOf hi0
        rw [ha, hb]
      exact congrArg Fin.val (hsnd.get_inj_iff.1 h3)
  · exact hmv
  · rw [hmv]
    exact sortDesc_sorted s
  · rw [hmv]
    exact sortDesc_perm s

/-- Witness for `softSortHard_permutation` at `tau = 1`, `pow = 1`,
`scores = [3, 1, 2]`; the sorted vector is `[3, 2, 1]`. -/
theorem softSortHard_permutation_witness :
    ((0 : ℚ) < 1 ∧ (0 : ℕ) < 1 ∧ ([3, 1, 2] : List ℚ).Nodup ∧
        sortDesc [3, 1, 2] = [3, 2, 1]) ∧
      ((softSortHard 1 1 [3, 1, 2]).length = ([3, 1, 2] : List ℚ).length ∧
        (∀ r ∈ softSortHard 1 1 [3, 1, 2], r.length = ([3, 1, 2] : List ℚ).length) ∧
        (∀ r ∈ softSortHard 1 1 [3, 1, 2], ∀ e ∈ r, e = 0 ∨ e = 1) ∧
        (∀ i, i < ([3, 1, 2] : List ℚ).length →
          ∃! j, j < ([3, 1, 2] : List ℚ).length ∧
            ((softSortHard 1 1 [3, 1, 2]).getD i []).getD j 0 = 1) ∧
        (∀ j, j < ([3, 1, 2] : List ℚ).length →
          ∃! i, i < ([3, 1, 2] : List ℚ).length ∧
            ((softSortHard 1 1 [3, 1, 2]).getD i []).getD j 0 = 1) ∧
        matVec (softSortHard 1 1 [3, 1, 2]) [3, 1, 2] = sortDesc [3, 1, 2] ∧
        List.Sorted (fun a b => b ≤ a) (matVec (softSortHard 1 1 [3, 1, 2]) [3, 1, 2]) ∧
        (matVec (softSortHard 1 1 [3, 1, 2]) [3, 1, 2]).Perm [3, 1, 2]) :=
  ⟨⟨by norm_num, by norm_num, by decide, by decide⟩,
    softSortHard_permutation 1 1 [3, 1, 2] (by norm_num) (by norm_num) (by decide)⟩
